import Mathlib

/-!
Verification of the windowed-PCA pipeline (repository `windowed_pca`,
files `code/windowed_pca.py` and `code/utils.py`).

The embedding below is a shallow model of the repository's code:

* PCA coordinate values are modelled as exact rationals (`ℚ`); a missing
  value (Python `None` / the serialized token `NA`) is `Option.none`.
* The CoordinateTrack is a list of sample rows, each row a
  `List (Option ℚ)` whose positions are the window columns in increasing
  window-midpoint order (the order in which `windowed_pca.py` appends them).
* Pandas operations used by `utils.polarize` are modelled entrywise:
  `df.loc`, `df.dropna(axis=1)`, `df.abs()`, `df.var(axis=1)` (ddof = 1,
  `NaN` for fewer than two observations), `sort_values` (modelled as an
  order-preserving sort; pandas leaves the order of tied keys unspecified),
  `df[col] * -1` (missing entries stay missing), and
  `df.to_numpy(na_value=0)` (missing replaced by 0).
* Fallible Python code (exceptions such as `AttributeError`, `KeyError`,
  `IndexError`) is modelled with `Option`/`Except` results.
-/

namespace WindowedPca

/-- One step of the vote loop of `utils.polarize` (utils.py lines 141-151).
Given the running reference `prev` and the current window value, it returns
the updated reference together with the vote for this window.  The code
compares `abs(window - prev_window) > abs(window - (prev_window*-1))`. -/
def voteStep (prev : ℚ) (v : Option ℚ) : ℚ × ℤ :=
  match v with
  | none => (prev, 0)
  | some x => if |x - prev| > |x - prev * (-1)| then (-x, 1) else (x, -1)

/-- The vote loop over the tail of a guide-sample row (utils.py lines 141-151),
carrying the running reference `prev`. -/
def votesAux (prev : ℚ) : List (Option ℚ) → List ℤ
  | [] => []
  | v :: rest => (voteStep prev v).2 :: votesAux (voteStep prev v).1 rest

/-- Votes of one guide-sample row (utils.py lines 136-153): the first window
always votes 0 and initializes `prev` to its value, or to 0 when it is
missing (`row[0] if not row[0] == None else 0`). -/
def votesRow : List (Option ℚ) → List ℤ
  | [] => []
  | v :: rest => 0 :: votesAux (v.getD 0) rest

/-- Per-window vote sums over all guide rows (utils.py lines 155-157:
`np.array(rows_lst, dtype=int).transpose()` followed by `sum(axis=1)`),
i.e. the pointwise sum of the guide rows' vote lists. -/
def voteSums : List (List (Option ℚ)) → List ℤ
  | [] => []
  | g :: gs => gs.foldl (fun acc r => List.zipWith (· + ·) acc (votesRow r)) (votesRow g)

/-- Column-wise sign flip of one sample row (utils.py lines 160-162):
walking `zip(w_pca_df.columns, switch_lst)`, a column is negated exactly
when its summed vote is negative; columns beyond the vote list are left
unchanged, and a missing entry stays missing (`df[idx]*-1` only negates
present values). -/
def applyFlipsRow : List ℤ → List (Option ℚ) → List (Option ℚ)
  | _, [] => []
  | [], row => row
  | s :: ss, v :: vs =>
      (if s < 0 then v.map (fun x => -x) else v) :: applyFlipsRow ss vs

/-- The column-flipping step of `utils.polarize` applied to the whole track
(utils.py lines 160-162). -/
def applyFlips (sums : List ℤ) (rows : List (List (Option ℚ))) :
    List (List (Option ℚ)) :=
  rows.map (applyFlipsRow sums)

/-- Negate one row; missing entries stay missing (`w_pca_df * -1`). -/
def negRow (row : List (Option ℚ)) : List (Option ℚ) :=
  row.map (Option.map (fun x => -x))

/-- All entries of the track with missing replaced by 0, flattened; this is
`w_pca_df.to_numpy(na_value=0)` (utils.py line 165). -/
def flat0 (rows : List (List (Option ℚ))) : List ℚ :=
  (rows.map (fun r => r.map (fun v => v.getD 0))).flatten

/-- Minimum of a list of rationals, `none` on the empty list. -/
def listMin : List ℚ → Option ℚ
  | [] => none
  | x :: xs => some (xs.foldl min x)

/-- Maximum of a list of rationals, `none` on the empty list. -/
def listMax : List ℚ → Option ℚ
  | [] => none
  | x :: xs => some (xs.foldl max x)

/-- Global orientation normalization (utils.py lines 164-166): the whole
track is negated exactly when
`abs(df.to_numpy(na_value=0).min()) > abs(df.to_numpy(na_value=0).max())`. -/
def globalNormalize (rows : List (List (Option ℚ))) : List (List (Option ℚ)) :=
  match listMin (flat0 rows), listMax (flat0 rows) with
  | some m, some M => if |m| > |M| then rows.map negRow else rows
  | _, _ => rows

/-- The polarization core of `utils.polarize` (utils.py lines 135-168) once
the guide rows have been extracted: vote, flip negatively-voted columns,
then apply the global orientation normalization. -/
def polarizeWithGuides (guideRows rows : List (List (Option ℚ))) :
    List (List (Option ℚ)) :=
  globalNormalize (applyFlips (voteSums guideRows) rows)

/-- Polarization with the guide rows selected by (0-based) row index from
the track itself, as `guide_samples_df = w_pca_df.loc[guide_samples]`
selects them by label (utils.py line 129). -/
def polarizeTrack (g : List ℕ) (rows : List (List (Option ℚ))) :
    List (List (Option ℚ)) :=
  polarizeWithGuides (g.map (fun i => rows.getD i [])) rows

/-- Entry of the track at sample row `i`, window column `j` (missing when
out of range). -/
def entry (rows : List (List (Option ℚ))) (i j : ℕ) : Option ℚ :=
  (rows.getD i []).getD j none

/-- Modelled from the spec's wording of the vote recurrence (spec §4.3(b)):
`v` missing gives vote 0 with `prev` unchanged; else if
`|v - prev| > |v - (-prev)|` the vote is +1 and `prev` becomes `-v`;
otherwise the vote is -1 and `prev` becomes `v`.  Written independently of
`votesAux` to be compared with it. -/
def specVotesAux (prev : ℚ) : List (Option ℚ) → List ℤ
  | [] => []
  | none :: rest => 0 :: specVotesAux prev rest
  | some v :: rest =>
      if |v - prev| > |v - (-prev)| then 1 :: specVotesAux (-v) rest
      else (-1) :: specVotesAux v rest

/-- Modelled from the spec's wording (spec §4.3(b)): the first window votes 0
and initializes the running reference to its value, or to 0 when missing. -/
def specVotesRow : List (Option ℚ) → List ℤ
  | [] => []
  | v :: rest => 0 :: specVotesAux (v.getD 0) rest

theorem specVotesAux_eq_votesAux (l : List (Option ℚ)) :
    ∀ prev : ℚ, specVotesAux prev l = votesAux prev l := by
  induction l with
  | nil => intro prev; rfl
  | cons v rest ih =>
      intro prev
      cases v with
      | none => simp [specVotesAux, votesAux, voteStep, ih]
      | some x =>
          have hc : x - prev * (-1) = x - (-prev) := by ring
          by_cases h : |x - prev| > |x - (-prev)|
          · simp only [specVotesAux, votesAux, voteStep, hc]
            rw [if_pos h, if_pos h]
            simp [ih]
          · simp only [specVotesAux, votesAux, voteStep, hc]
            rw [if_neg h, if_neg h]
            simp [ih]

/-- C1: for a guide sample's row ordered by increasing window midpoint, the
vote sequence computed by `utils.polarize` follows the spec's recurrence
(first window votes 0 and sets the running reference to its value, or 0 when
missing; a missing value votes 0 and keeps the reference; a value farther
from the reference than from its negation votes +1 and sets the reference to
its negation; otherwise the vote is -1 and the reference becomes the value),
and the row `[1, -1, 1, 1]` yields the vote sequence `[0, +1, -1, -1]`. -/
theorem claim_votes_recurrence :
    (∀ row : List (Option ℚ), specVotesRow row = votesRow row) ∧
      votesRow [some 1, some (-1), some 1, some 1] = [0, 1, -1, -1] := by
  constructor
  · intro row
    cases row with
    | nil => rfl
    | cons v rest => simp [specVotesRow, votesRow, specVotesAux_eq_votesAux]
  · norm_num [votesRow, votesAux, voteStep]

theorem applyFlipsRow_nil (sums : List ℤ) : applyFlipsRow sums [] = [] := by
  cases sums <;> rfl

theorem applyFlipsRow_getD (row : List (Option ℚ)) :
    ∀ (sums : List ℤ) (j : ℕ),
      (applyFlipsRow sums row).getD j none =
        if sums.getD j 0 < 0 then (row.getD j none).map (fun x => -x)
        else row.getD j none := by
  induction row with
  | nil =>
      intro sums j
      rw [applyFlipsRow_nil]
      split <;> simp
  | cons v vs ih =>
      intro sums j
      cases sums with
      | nil => simp [applyFlipsRow]
      | cons s ss =>
          cases j with
          | zero => simp [applyFlipsRow]
          | succ k => simpa [applyFlipsRow] using ih ss k

theorem getD_map_of_fix {α β : Type} (f : α → β) (d : α) (e : β) (hf : f d = e) :
    ∀ (l : List α) (i : ℕ), (l.map f).getD i e = f (l.getD i d) := by
  intro l
  induction l with
  | nil => intro i; simp [hf]
  | cons x xs ih =>
      intro i
      cases i with
      | zero => simp
      | succ k => simpa using ih k

/-- C2: in the flipping step of `utils.polarize` (lines 155-162), the entry
of sample `i` at window `j` is negated exactly when the sum of the guide
samples' votes for window `j` is strictly negative (missing entries staying
missing, via `Option.map`), is unchanged when the summed vote is zero or
positive, and missingness is preserved in all cases. -/
theorem claim_flip_decision (gs rows : List (List (Option ℚ))) (i j : ℕ) :
    entry (applyFlips (voteSums gs) rows) i j =
      (if (voteSums gs).getD j 0 < 0 then (entry rows i j).map (fun x => -x)
        else entry rows i j) ∧
    (entry (applyFlips (voteSums gs) rows) i j = none ↔ entry rows i j = none) := by
  have h1 : entry (applyFlips (voteSums gs) rows) i j =
      if (voteSums gs).getD j 0 < 0 then (entry rows i j).map (fun x => -x)
      else entry rows i j := by
    unfold entry applyFlips
    rw [getD_map_of_fix (applyFlipsRow (voteSums gs)) [] []
      (applyFlipsRow_nil (voteSums gs)) rows i]
    exact applyFlipsRow_getD (rows.getD i []) (voteSums gs) j
  refine ⟨h1, ?_⟩
  rw [h1]
  split <;> simp

/-- Per-window output of `windowed_pca.pca` (windowed_pca.py lines 141-164):
the two coordinate vectors, the two percent-variance-explained values, and
the variant count. -/
structure WinResult where
  pc1 : List (Option ℚ)
  pc2 : List (Option ℚ)
  pct1 : Option ℚ
  pct2 : Option ℚ
  n_variants : ℕ
deriving DecidableEq

/-- `windowed_pca.pca` (windowed_pca.py lines 117-164).  The eigensolver
call `allel.pca` (an external library) is passed in as `doPca`; the skip
branch never consults it.  The second component of the output models the
`[INFO] Skipped window w_start-(w_start+w_size-1) with n variants` notice
printed on the skip path (lines 151-156).  `win[0]` on a zero-variant
window raises an IndexError (line 157, `[None] * len(win[0])`), modelled as
`none`. -/
def pcaWin (doPca : List (List ℤ) → List ℚ × List ℚ × ℚ × ℚ)
    (min_var_per_w w_start w_size : ℕ) (win : List (List ℤ)) :
    Option (WinResult × Option (ℕ × ℕ × ℕ)) :=
  let trimmed := win.map (fun x => x.drop 1)
  let n_variants := trimmed.length
  if min_var_per_w ≤ n_variants then
    let r := doPca trimmed
    some (⟨r.1.map some, r.2.1.map some, some r.2.2.1, some r.2.2.2, n_variants⟩,
      none)
  else
    match trimmed with
    | [] => none
    | w0 :: _ =>
        some (⟨List.replicate w0.length none, List.replicate w0.length none,
          none, none, n_variants⟩,
          some (w_start, w_start + w_size - 1, n_variants))

/-- C3 counterexample: a window with zero variants has variant count 0 < 50,
so the claim promises a WindowResult with all coordinates missing; instead
`pca` evaluates `len(win[0])` on the empty window and raises an IndexError
(no WindowResult is produced, modelled as `none`). -/
theorem pca_zero_variant_window_crashes :
    pcaWin (fun _ => ([], [], 0, 0)) 50 0 100 [] = none := rfl

/-- C3 (amended): for every window with at least one variant and variant
count strictly below the threshold, `pca` returns a WindowResult whose
coordinate vectors are entirely missing (one entry per sample), whose
percent-variance-explained fields are both null, and whose recorded variant
count equals the true count; the result does not depend on the eigensolver
(`doPca` is arbitrary, i.e. no PCA is attempted), and the skip notice
identifying the window and its count is emitted. -/
theorem pca_skip_below_threshold
    (doPca : List (List ℤ) → List ℚ × List ℚ × ℚ × ℚ)
    (T w_start w_size : ℕ) (win : List (List ℤ))
    (hne : win ≠ []) (hlt : win.length < T) :
    pcaWin doPca T w_start w_size win =
      some (⟨List.replicate ((win.headD []).drop 1).length none,
          List.replicate ((win.headD []).drop 1).length none,
          none, none, win.length⟩,
        some (w_start, w_start + w_size - 1, win.length)) := by
  cases win with
  | nil => exact absurd rfl hne
  | cons w ws =>
      unfold pcaWin
      simp only [List.map_cons, List.length_cons, List.length_map]
      rw [if_neg (by simpa using Nat.not_le.mpr hlt)]
      simp

theorem pca_skip_below_threshold_witness :
    ([[5, 0, 1]] : List (List ℤ)) ≠ [] ∧
      ([[5, 0, 1]] : List (List ℤ)).length < 50 ∧
      pcaWin (fun _ => ([], [], 0, 0)) 50 0 100 [[5, 0, 1]] =
        some (⟨[none, none], [none, none], none, none, 1⟩, some (0, 99, 1)) :=
  ⟨by decide, by decide, by
    simpa using pca_skip_below_threshold (fun _ => ([], [], 0, 0)) 50 0 100
      [[5, 0, 1]] (by decide) (by decide)⟩

/-- The three result containers of `windowed_pca.windowed_pca`
(windowed_pca.py lines 180-182): window midpoints, coordinate vectors, and
per-window stats rows. -/
structure AggState where
  w_mid_lst : List ℕ
  w_pca_lst : List (List (Option ℚ))
  w_stats_lst : List (List (Option ℚ))

/-- Models windowed_pca.py lines 166-169, which run once per window.  The
statement `w_pca_lst.append(out[0]) if pc==1 else out[1]` is a conditional
expression: when `pc == 1` it appends `out[0]`, otherwise it merely
evaluates `out[1]` and discards the value, appending nothing to
`w_pca_lst`.  The stats row `[out[2], out[3], out[4]]` is appended
unconditionally. -/
def appendResults (pc : ℕ) (st : AggState) (w_mid : ℕ) (out : WinResult) :
    AggState :=
  ⟨st.w_mid_lst ++ [w_mid],
    if pc = 1 then st.w_pca_lst ++ [out.pc1] else st.w_pca_lst,
    st.w_stats_lst ++ [[out.pct1, out.pct2, some (out.n_variants : ℚ)]]⟩

/-- C4: the aggregator appends the PC1 vector when `pc = 1` and the stats
row `[pct_explained_pc_1, pct_explained_pc_2, n_variants]` for every window
regardless of `pc`; but when `pc = 2` the PC2 vector is evaluated and
discarded, so nothing at all is appended to the coordinate track,
contradicting the claim that the PC2 vector is used. -/
theorem claim_aggregator_pc2_discarded :
    (∀ (st : AggState) (w_mid : ℕ) (out : WinResult),
        (appendResults 2 st w_mid out).w_pca_lst = st.w_pca_lst) ∧
      (∀ (st : AggState) (w_mid : ℕ) (out : WinResult),
        (appendResults 1 st w_mid out).w_pca_lst = st.w_pca_lst ++ [out.pc1]) ∧
      (∀ (pc : ℕ) (st : AggState) (w_mid : ℕ) (out : WinResult),
        (appendResults pc st w_mid out).w_stats_lst =
          st.w_stats_lst ++ [[out.pct1, out.pct2, some (out.n_variants : ℚ)]]) :=
  ⟨fun _ _ _ => rfl, fun _ _ _ => rfl, fun _ _ _ _ => rfl⟩

/-- A CoordinateTrack with its sample labels: the DataFrame
`w_pca_df` of windowed_pca.py lines 208-213 (index = sample ids, one
column per window midpoint in increasing order). -/
structure Track where
  ids : List String
  rows : List (List (Option ℚ))

/-- A dynamically typed Python argument: `utils.polarize` uses its
`mean_threshold` parameter both as a string (`mean_threshold.split(',')`,
line 121) and as an integer slice bound (`[0:mean_threshold]`, line 126),
so its model carries the runtime tag. -/
inductive PyVal where
  | int (n : ℕ)
  | str (s : String)

/-- Row of the track labelled `s` (`w_pca_df.loc[s]`). -/
def rowOf (t : Track) (s : String) : List (Option ℚ) :=
  t.rows.getD (t.ids.indexOf s) []

/-- Indices of the window columns with no missing value in any row;
`df.dropna(axis=1)` keeps exactly these columns. -/
def completeCols (rows : List (List (Option ℚ))) : List ℕ :=
  (List.range (rows.headD []).length).filter
    (fun j => rows.all (fun r => (r.getD j none).isSome))

/-- Values of a row at the given column indices (missing treated as 0; the
callers only pass columns that are complete). -/
def restrictCols (row : List (Option ℚ)) (cols : List ℕ) : List ℚ :=
  cols.map (fun j => (row.getD j none).getD 0)

/-- Sample variance with ddof = 1, as `pandas.DataFrame.var` computes it;
`none` models the NaN produced for fewer than two observations. -/
def sampleVar (l : List ℚ) : Option ℚ :=
  if l.length ≤ 1 then none
  else
    some (((l.map (fun x => (x - l.sum / l.length) ^ 2)).sum) /
      ((l.length : ℚ) - 1))

/-- Sorting key of utils.py line 124: the variance of the absolute values
of a sample's coordinates over the globally complete window columns. -/
def varKey (t : Track) (s : String) : Option ℚ :=
  sampleVar ((restrictCols (rowOf t s) (completeCols t.rows)).map (fun x => |x|))

/-- Ascending comparison on optional keys with `none` (NaN) sorted last,
matching `sort_values(ascending=True)`. -/
def ascLEb (k : String → Option ℚ) (a b : String) : Bool :=
  match k a, k b with
  | some x, some y => decide (x ≤ y)
  | some _, none => true
  | none, some _ => false
  | none, none => true

def ascLE (k : String → Option ℚ) (a b : String) : Prop := ascLEb k a b = true

instance (k : String → Option ℚ) : DecidableRel (ascLE k) :=
  fun a b => instDecidableEqBool (ascLEb k a b) true

/-- Descending comparison on rational keys, matching
`sort_values(ascending=False)`. -/
def descGE (k : String → ℚ) (a b : String) : Prop := k b ≤ k a

instance (k : String → ℚ) : DecidableRel (descGE k) :=
  fun a b => inferInstanceAs (Decidable (k b ≤ k a))

/-- utils.py line 124: sort all samples by the variance of their absolute
coordinate values over the globally complete columns (NaN keys last; pandas
leaves tied keys in unspecified order, modelled here as a stable sort) and
keep the first `var_threshold` ids. -/
def varStep (t : Track) (var_threshold : ℕ) : List String :=
  (List.insertionSort (ascLE (varKey t)) t.ids).take var_threshold

/-- Sorting key of utils.py line 126: the sum of the absolute values of a
sample's coordinates over the columns complete within the selected subset
(a sum over no columns is 0, never NaN). -/
def sumKey (t : Track) (sel : List String) (s : String) : ℚ :=
  ((restrictCols (rowOf t s) (completeCols (sel.map (rowOf t)))).map
    (fun x => |x|)).sum

/-- utils.py line 126: within the subset selected by line 124, sort by the
absolute-value sums in descending order and keep the first
`mean_threshold` ids. -/
def meanStep (t : Track) (sel : List String) (mean_threshold : ℕ) : List String :=
  (List.insertionSort (descGE (sumKey t sel)) sel).take mean_threshold

/-- Automatic guide-sample selection of `utils.polarize`
(utils.py lines 123-126). -/
def selectGuides (t : Track) (var_threshold mean_threshold : ℕ) : List String :=
  meanStep t (varStep t var_threshold) mean_threshold

/-- Splitting a string at commas, the semantics of Python's
`somestring.split(',')` (an executable structural recursion over the
characters). -/
def splitCommaAux (acc : List Char) : List Char → List String
  | [] => [String.mk acc.reverse]
  | c :: cs =>
      if c = ',' then String.mk acc.reverse :: splitCommaAux [] cs
      else splitCommaAux (c :: acc) cs

def splitComma (s : String) : List String := splitCommaAux [] s.data

/-- The guide-sample dispatch of `utils.polarize` (utils.py lines 120-126).
With a non-empty `guide_samples` argument the code executes
`guide_samples = mean_threshold.split(',')`: it splits the `mean_threshold`
argument, not the supplied guide list; `main` passes the module constant
`mean_threshold = 3` (windowed_pca.py lines 11 and 304), an integer, which
has no `split` attribute, so the statement raises AttributeError.  Were a
string passed instead, the ids actually used would come from that string,
and an id absent from the index would only surface as a KeyError at
`w_pca_df.loc[...]` (line 122).  With an empty `guide_samples` the
automatic selection of lines 124-126 runs (it slices with
`[0:mean_threshold]`, so a string `mean_threshold` would raise TypeError
there). -/
def polarizeGuideDispatch (t : Track) (var_threshold : ℕ)
    (mean_threshold : PyVal) (guide_samples : String) :
    Except String (List String) :=
  if guide_samples ≠ "" then
    match mean_threshold with
    | .int _ => .error "AttributeError: int object has no attribute split"
    | .str s =>
        let gids := splitComma s
        if gids.all (fun x => t.ids.contains x) then .ok gids
        else .error "KeyError: guide sample not in index"
  else
    match mean_threshold with
    | .int m => .ok (selectGuides t var_threshold m)
    | .str _ => .error "TypeError: slice indices must be integers"

/-- The call `polarize(w_pca_df, mean_threshold=mean_threshold,
guide_samples=guide_samples)` of windowed_pca.py lines 302-306: `polarize`
declares four required parameters (utils.py line 111) and `var_threshold`
is not supplied, so the call raises TypeError before any polarization
work starts. -/
def mainPolarizeCall (_t : Track) (_guide_samples : String) :
    Except String Track :=
  .error "TypeError: polarize() missing 1 required positional argument"

/-- C6: explicitly supplied guide samples are not used directly and absent
ids are not rejected before polarization.  At the pipeline's own arguments
(`mean_threshold = 3`, a non-empty guide list all of whose ids are present
in the track) the dispatch raises AttributeError because the code splits
`mean_threshold` instead of `guide_samples`; with a string `mean_threshold`
the ids used are the ones parsed from that string, not the supplied ones;
and `main`'s call site itself raises TypeError because the required
`var_threshold` argument is never passed. -/
theorem claim_explicit_guides_bug :
    (polarizeGuideDispatch ⟨["ind1", "ind2"], [[some 1], [some 2]]⟩ 9
        (.int 3) "ind1,ind2" =
      .error "AttributeError: int object has no attribute split") ∧
      (polarizeGuideDispatch
          ⟨["ind1", "ind2", "x", "y"],
            [[some 1], [some 2], [some 3], [some 4]]⟩ 9
          (.str "x,y") "ind1,ind2" = .ok ["x", "y"]) ∧
      (mainPolarizeCall ⟨["ind1"], [[some 1]]⟩ "ind1" =
        .error "TypeError: polarize() missing 1 required positional argument") :=
  ⟨rfl, rfl, rfl⟩

/-- A two-sample track: sample `A` has a missing first window but perfectly
stable values elsewhere; sample `B` has no missing windows. -/
def trackAB : Track :=
  ⟨["A", "B"], [[none, some 5, some 5], [some 0, some 0, some 3]]⟩

/-- C5 counterexample: automatic guide-sample selection on `trackAB` with
`var_threshold = 1` and `mean_threshold = 1` selects sample `A`, which has a
missing window; the claim says only samples with no missing windows are
considered (so only `B` would be eligible).  The code's `dropna(axis=1)`
drops window *columns* containing a missing value instead of excluding
samples with missing windows. -/
theorem selectGuides_picks_sample_with_missing_window :
    selectGuides trackAB 1 1 = ["A"] ∧ none ∈ rowOf trackAB "A" := by
  constructor
  · have hA : List.indexOf "A" ["A", "B"] = 0 := by simp
    have hB : List.indexOf "B" ["A", "B"] = 1 := by simp
    norm_num [selectGuides, meanStep, varStep, varKey, sumKey, rowOf,
      completeCols, restrictCols, sampleVar, ascLE, ascLEb, descGE,
      List.insertionSort, List.orderedInsert, trackAB, List.range_succ,
      List.filter_append, Function.comp, hA, hB]
  · decide

theorem ascLE_total (k : String → Option ℚ) (a b : String) :
    ascLE k a b ∨ ascLE k b a := by
  unfold ascLE ascLEb
  rcases k a with _ | x <;> rcases k b with _ | y <;> simp
  exact le_total x y

theorem ascLE_trans (k : String → Option ℚ) (a b c : String) :
    ascLE k a b → ascLE k b c → ascLE k a c := by
  unfold ascLE ascLEb
  rcases k a with _ | x <;> rcases k b with _ | y <;> rcases k c with _ | z <;>
    simp
  exact le_trans

theorem descGE_total (k : String → ℚ) (a b : String) :
    descGE k a b ∨ descGE k b a := le_total (k b) (k a)

theorem descGE_trans (k : String → ℚ) (a b c : String) :
    descGE k a b → descGE k b c → descGE k a c :=
  fun h1 h2 => le_trans h2 h1

/-- Everything kept by `take k` of a sorted permutation is related to
everything not kept. -/
theorem take_sorted_rel {α : Type} (r : α → α → Prop) [DecidableRel r]
    (htot : ∀ a b, r a b ∨ r b a) (htr : ∀ a b c, r a b → r b c → r a c)
    (l : List α) (k : ℕ) (a b : α)
    (ha : a ∈ (List.insertionSort r l).take k)
    (hb : b ∈ l) (hnb : b ∉ (List.insertionSort r l).take k) : r a b := by
  haveI : IsTotal α r := ⟨htot⟩
  haveI : IsTrans α r := ⟨htr⟩
  have hsorted := List.sorted_insertionSort r l
  have hb' : b ∈ List.insertionSort r l :=
    ((List.perm_insertionSort r l).mem_iff).mpr hb
  rw [← List.take_append_drop k (List.insertionSort r l)] at hb' hsorted
  rcases List.mem_append.mp hb' with h | h
  · exact absurd h hnb
  · exact (List.pairwise_append.mp hsorted).2.2 a ha b h

/-- C5 (amended): automatic guide-sample selection considers all samples of
the track (samples with missing windows are not excluded); over the window
columns that are complete in every sample it takes the `var_threshold`
samples whose absolute coordinate values have the smallest variance
(missing/NaN variances ordered last), and from that subset — over the
columns complete within the subset — it keeps the `mean_threshold` samples
with the largest sums of absolute values: every selected sample is an id of
the track, every finally kept sample comes from the variance-selected
subset, every variance-selected sample has a variance key no larger than
every unselected track sample's, and every finally kept sample has a sum
key no smaller than every dropped subset member's. -/
theorem selectGuides_amended (t : Track) (v m : ℕ) :
    (∀ a ∈ varStep t v, a ∈ t.ids) ∧
      (∀ a ∈ selectGuides t v m, a ∈ varStep t v) ∧
      (∀ a ∈ varStep t v, ∀ b ∈ t.ids, b ∉ varStep t v →
        ascLE (varKey t) a b) ∧
      (∀ a ∈ selectGuides t v m, ∀ b ∈ varStep t v, b ∉ selectGuides t v m →
        descGE (sumKey t (varStep t v)) a b) := by
  refine ⟨?_, ?_, ?_, ?_⟩
  · intro a ha
    exact ((List.perm_insertionSort (ascLE (varKey t)) t.ids).mem_iff).mp
      (List.take_subset _ _ ha)
  · intro a ha
    exact ((List.perm_insertionSort
      (descGE (sumKey t (varStep t v))) (varStep t v)).mem_iff).mp
      (List.take_subset _ _ ha)
  · intro a ha b hb hnb
    exact take_sorted_rel (ascLE (varKey t)) (ascLE_total _) (ascLE_trans _)
      t.ids v a b ha hb hnb
  · intro a ha b hb hnb
    exact take_sorted_rel (descGE (sumKey t (varStep t v))) (descGE_total _)
      (descGE_trans _) (varStep t v) m a b ha hb hnb

theorem selectGuides_amended_witness :
    "A" ∈ varStep trackAB 1 ∧ "B" ∈ trackAB.ids ∧ "B" ∉ varStep trackAB 1 ∧
      ascLE (varKey trackAB) "A" "B" := by
  have hA : List.indexOf "A" ["A", "B"] = 0 := by simp
  have hB : List.indexOf "B" ["A", "B"] = 1 := by simp
  have hv : varStep trackAB 1 = ["A"] := by
    norm_num [varStep, varKey, rowOf, completeCols, restrictCols, sampleVar,
      ascLE, ascLEb, List.insertionSort, List.orderedInsert, trackAB,
      List.range_succ, List.filter_append, Function.comp, hA, hB]
  have h1 : "A" ∈ varStep trackAB 1 := by rw [hv]; exact List.mem_singleton.mpr rfl
  have h2 : "B" ∈ trackAB.ids := by decide
  have h3 : "B" ∉ varStep trackAB 1 := by rw [hv]; decide
  exact ⟨h1, h2, h3,
    (selectGuides_amended trackAB 1 1).2.2.1 "A" h1 "B" h2 h3⟩

theorem applyFlipsRow_length (row : List (Option ℚ)) :
    ∀ sums : List ℤ, (applyFlipsRow sums row).length = row.length := by
  induction row with
  | nil => intro s; rw [applyFlipsRow_nil]
  | cons v vs ih =>
      intro s
      cases s with
      | nil => rfl
      | cons a as => simpa [applyFlipsRow] using ih as

theorem flat0_cons (r : List (Option ℚ)) (rest : List (List (Option ℚ))) :
    flat0 (r :: rest) = r.map (fun v => v.getD 0) ++ flat0 rest := by
  simp [flat0]

theorem flat0_length_applyFlips (sums : List ℤ) (rows : List (List (Option ℚ))) :
    (flat0 (applyFlips sums rows)).length = (flat0 rows).length := by
  induction rows with
  | nil => rfl
  | cons r rest ih =>
      simpa [applyFlips, flat0_cons, applyFlipsRow_length] using ih

theorem getD0_map_neg (v : Option ℚ) :
    (v.map (fun a => -a)).getD 0 = -(v.getD 0) := by
  cases v <;> simp

theorem flat0_map_negRow (rows : List (List (Option ℚ))) :
    flat0 (rows.map negRow) = (flat0 rows).map (fun a => -a) := by
  induction rows with
  | nil => rfl
  | cons r rest ih =>
      simp [flat0_cons, negRow, List.map_map, Function.comp, getD0_map_neg, ih]

theorem foldl_min_neg (xs : List ℚ) :
    ∀ x : ℚ, (xs.map (fun a => -a)).foldl min (-x) = -(xs.foldl max x) := by
  induction xs with
  | nil => intro x; rfl
  | cons y ys ih =>
      intro x
      have h : min (-x) (-y) = -(max x y) := min_neg_neg x y
      simpa [h] using ih (max x y)

theorem foldl_max_neg (xs : List ℚ) :
    ∀ x : ℚ, (xs.map (fun a => -a)).foldl max (-x) = -(xs.foldl min x) := by
  induction xs with
  | nil => intro x; rfl
  | cons y ys ih =>
      intro x
      have h : max (-x) (-y) = -(min x y) := max_neg_neg x y
      simpa [h] using ih (min x y)

theorem listMin_map_neg (l : List ℚ) :
    listMin (l.map (fun a => -a)) = (listMax l).map (fun a => -a) := by
  cases l with
  | nil => rfl
  | cons x xs => simp [listMin, listMax, foldl_min_neg]

theorem listMax_map_neg (l : List ℚ) :
    listMax (l.map (fun a => -a)) = (listMin l).map (fun a => -a) := by
  cases l with
  | nil => rfl
  | cons x xs => simp [listMin, listMax, foldl_max_neg]

theorem listMin_of_ne_nil (l : List ℚ) (h : l ≠ []) :
    ∃ m, listMin l = some m := by
  cases l with
  | nil => exact absurd rfl h
  | cons x xs => exact ⟨xs.foldl min x, rfl⟩

theorem listMax_of_ne_nil (l : List ℚ) (h : l ≠ []) :
    ∃ M, listMax l = some M := by
  cases l with
  | nil => exact absurd rfl h
  | cons x xs => exact ⟨xs.foldl max x, rfl⟩

/-- C7 counterexample: for the track whose only entry is -5, the finite
value of largest magnitude is -5, which is negative, yet polarization
leaves the track unchanged (`abs(min) > abs(max)` is false when min = max),
so the claim's flip condition and its post-condition (maximum-magnitude
finite value non-negative) both fail. -/
theorem polarize_all_negative_track_unchanged :
    polarizeTrack [0] [[some (-5)]] = [[some (-5)]] ∧ ((-5 : ℚ) < 0) := by
  constructor
  · rfl
  · norm_num

/-- C7 (amended): the global-normalization step that ends polarization
negates the whole track exactly when the minimum of the track's values
(missing read as 0) has strictly larger magnitude than the maximum; for a
track with at least one entry, the final track therefore satisfies
`|min| ≤ |max|` over its values with missing read as 0 (so a strictly
dominant largest-magnitude value ends up non-negative, while ties — e.g. an
all-equal negative track — may remain negative). -/
theorem polarize_global_orientation (g : List ℕ)
    (rows : List (List (Option ℚ))) (h : flat0 rows ≠ []) :
    ∃ m M, listMin (flat0 (polarizeTrack g rows)) = some m ∧
      listMax (flat0 (polarizeTrack g rows)) = some M ∧ |m| ≤ |M| := by
  have hne : flat0 (applyFlips (voteSums (List.map (fun i => rows.getD i []) g)) rows) ≠ [] := by
    intro hc
    apply h
    have hlen := flat0_length_applyFlips
      (voteSums (List.map (fun i => rows.getD i []) g)) rows
    rw [hc] at hlen
    exact List.length_eq_zero.mp hlen.symm
  obtain ⟨m, hm⟩ := listMin_of_ne_nil _ hne
  obtain ⟨M, hM⟩ := listMax_of_ne_nil _ hne
  have hout : polarizeTrack g rows =
      globalNormalize (applyFlips
        (voteSums (List.map (fun i => rows.getD i []) g)) rows) := rfl
  rw [hout]
  unfold globalNormalize
  rw [hm, hM]
  dsimp only
  by_cases hcmp : |m| > |M|
  · rw [if_pos hcmp]
    refine ⟨-M, -m, ?_, ?_, ?_⟩
    · rw [flat0_map_negRow, listMin_map_neg, hM]; rfl
    · rw [flat0_map_negRow, listMax_map_neg, hm]; rfl
    · simpa [abs_neg] using le_of_lt hcmp
  · rw [if_neg hcmp]
    exact ⟨m, M, hm, hM, not_lt.mp hcmp⟩

theorem polarize_global_orientation_witness :
    flat0 [[some (-5 : ℚ)], [some 3]] ≠ [] ∧
      (∃ m M,
        listMin (flat0 (polarizeTrack [0] [[some (-5 : ℚ)], [some 3]])) = some m ∧
        listMax (flat0 (polarizeTrack [0] [[some (-5 : ℚ)], [some 3]])) = some M ∧
        |m| ≤ |M|) :=
  ⟨by simp [flat0], polarize_global_orientation [0] [[some (-5)], [some 3]]
    (by simp [flat0])⟩

theorem globalNormalize_cases (rows : List (List (Option ℚ))) :
    globalNormalize rows = rows ∨ globalNormalize rows = rows.map negRow := by
  unfold globalNormalize
  rcases listMin (flat0 rows) with _ | m
  · left; rfl
  · rcases listMax (flat0 rows) with _ | M
    · left; rfl
    · dsimp only
      by_cases hcmp : |m| > |M|
      · right; rw [if_pos hcmp]
      · left; rw [if_neg hcmp]

theorem negRow_getD (row : List (Option ℚ)) (j : ℕ) :
    (negRow row).getD j none = (row.getD j none).map (fun x => -x) :=
  getD_map_of_fix (Option.map (fun x => -x)) none none rfl row j

theorem entry_applyFlips (sums : List ℤ) (rows : List (List (Option ℚ)))
    (i j : ℕ) :
    entry (applyFlips sums rows) i j =
      if sums.getD j 0 < 0 then (entry rows i j).map (fun x => -x)
      else entry rows i j := by
  unfold entry applyFlips
  rw [getD_map_of_fix (applyFlipsRow sums) [] [] (applyFlipsRow_nil sums) rows i]
  exact applyFlipsRow_getD (rows.getD i []) sums j

theorem entry_map_negRow (rows : List (List (Option ℚ))) (i j : ℕ) :
    entry (rows.map negRow) i j = (entry rows i j).map (fun x => -x) := by
  unfold entry
  rw [getD_map_of_fix negRow [] [] rfl rows i]
  exact negRow_getD (rows.getD i []) j

/-- C10: polarization returns a track with exactly the same number of
sample rows and the same window columns per row as its input, every output
entry is the corresponding input entry or its negation, and missing entries
stay missing at exactly the same positions. -/
theorem claim_polarize_shape_and_sign (g : List ℕ)
    (rows : List (List (Option ℚ))) (i j : ℕ) :
    (polarizeTrack g rows).length = rows.length ∧
      ((polarizeTrack g rows).getD i []).length = (rows.getD i []).length ∧
      (entry (polarizeTrack g rows) i j = entry rows i j ∨
        entry (polarizeTrack g rows) i j = (entry rows i j).map (fun x => -x)) ∧
      (entry (polarizeTrack g rows) i j = none ↔ entry rows i j = none) := by
  have hXdef : polarizeTrack g rows =
      globalNormalize (applyFlips
        (voteSums (List.map (fun i => rows.getD i []) g)) rows) := rfl
  set S := voteSums (List.map (fun i => rows.getD i []) g) with hS
  have hXlen : (applyFlips S rows).length = rows.length := by
    simp [applyFlips]
  have hXrow : ∀ i, ((applyFlips S rows).getD i []).length =
      (rows.getD i []).length := by
    intro i
    unfold applyFlips
    rw [getD_map_of_fix (applyFlipsRow S) [] [] (applyFlipsRow_nil S) rows i]
    exact applyFlipsRow_length (rows.getD i []) S
  have hXent : entry (applyFlips S rows) i j = entry rows i j ∨
      entry (applyFlips S rows) i j = (entry rows i j).map (fun x => -x) := by
    rw [entry_applyFlips]
    by_cases hcmp : S.getD j 0 < 0
    · right; rw [if_pos hcmp]
    · left; rw [if_neg hcmp]
  rcases globalNormalize_cases (applyFlips S rows) with hgn | hgn <;>
    rw [hXdef, hgn]
  · refine ⟨hXlen, hXrow i, hXent, ?_⟩
    rcases hXent with he | he <;> simp [he]
  · refine ⟨by simpa [List.length_map] using hXlen, ?_, ?_, ?_⟩
    · rw [getD_map_of_fix negRow [] [] rfl]
      simpa [negRow, List.length_map] using hXrow i
    · rcases hXent with he | he
      · right; rw [entry_map_negRow, he]
      · left
        rw [entry_map_negRow, he]
        cases entry rows i j <;> simp
    · rw [entry_map_negRow]
      rcases hXent with he | he <;> rw [he] <;> simp

/-- Serialization of one value at 7-decimal precision and parsing it back
(windowed_pca.py line 13 `float_precision = 7`, lines 313-326
`float_format='%.7f'`, lines 271-283 `pd.read_csv`): the reread value is
the input rounded to the nearest multiple of 10⁻⁷.  Values are modelled as
exact rationals. -/
def serial7 (x : ℚ) : ℚ := ((round (x * 10 ^ 7) : ℤ) : ℚ) / 10 ^ 7

/-- Round-trip of a track entry through the TSV: a missing entry is written
as the literal token `NA` (`na_rep='NA'`) and read back as missing
(`na_values='NA'`); a present value goes through `%.7f`. -/
def roundTripEntry (v : Option ℚ) : Option ℚ := v.map serial7

/-- windowed_pca.py lines 266-306: when both output TSVs of a previous run
exist, the pipeline loads them and uses them as they are (neither the
windowed PCA nor `polarize` runs on the loaded data); otherwise it
recomputes. -/
def mainTrackSource (prevExists : Bool) (loaded : List (List (Option ℚ)))
    (recompute : Unit → Except String (List (List (Option ℚ)))) :
    Except String (List (List (Option ℚ))) :=
  if prevExists then .ok loaded else recompute ()

/-- C9 counterexample: the value 10⁻⁸ serializes under `%.7f` as
`0.0000000` and is read back as 0, not as 10⁻⁸, so the round-trip does not
reproduce the in-memory representation exactly. -/
theorem serial7_loses_precision :
    roundTripEntry (some ((1 : ℚ) / 10 ^ 8)) = some 0 ∧
      ((0 : ℚ) ≠ 1 / 10 ^ 8) := by
  constructor
  · simp only [roundTripEntry, Option.map_some]
    norm_num [serial7, round_eq]
  · norm_num

/-- C9 (amended): round-tripping reproduces missing positions exactly (the
`NA` token maps back to missing), reproduces every value that is an exact
multiple of 10⁻⁷ (values off the 7-decimal grid are rounded and not
recovered), and when prior serialized output exists the pipeline returns
the loaded tracks unchanged — polarization is not re-applied and the
recompute path is never consulted. -/
theorem roundtrip_amended :
    (∀ x : ℚ, (∃ k : ℤ, x = (k : ℚ) / 10 ^ 7) → serial7 x = x) ∧
      (∀ v : Option ℚ, roundTripEntry v = none ↔ v = none) ∧
      (∀ (loaded : List (List (Option ℚ)))
        (recompute : Unit → Except String (List (List (Option ℚ)))),
        mainTrackSource true loaded recompute = .ok loaded) := by
  refine ⟨?_, ?_, fun _ _ => rfl⟩
  · rintro x ⟨k, rfl⟩
    unfold serial7
    rw [div_mul_cancel₀ ((k : ℚ)) (by norm_num : (10 : ℚ) ^ 7 ≠ 0),
      round_intCast]
  · intro v
    cases v <;> simp [roundTripEntry]

theorem roundtrip_amended_witness :
    (∃ k : ℤ, (3 : ℚ) / 10 ^ 7 = (k : ℚ) / 10 ^ 7) ∧
      serial7 ((3 : ℚ) / 10 ^ 7) = (3 : ℚ) / 10 ^ 7 :=
  ⟨⟨3, by norm_num⟩, roundtrip_amended.1 ((3 : ℚ) / 10 ^ 7) ⟨3, by norm_num⟩⟩

/-- Vote of one window value relative to a fixed anchor sign `a`: missing
votes 0, a value on the opposite side of zero from `a` votes +1 (flip), and
a value on the same side votes -1 (keep).  Proof-side characterization of
the running-reference loop when no zero or missing reference occurs. -/
def signVote (a : ℚ) (v : Option ℚ) : ℤ :=
  match v with
  | none => 0
  | some x => if x * a < 0 then 1 else -1

theorem voteCond_iff (x p : ℚ) :
    (|x - p| > |x - p * (-1)|) ↔ x * p < 0 := by
  rw [gt_iff_lt, ← sq_lt_sq]
  constructor <;> intro h <;> nlinarith

theorem votesAux_eq_signVote (a : ℚ) (l : List (Option ℚ))
    (hl : ∀ v ∈ l, v ≠ some 0) :
    ∀ p : ℚ, 0 < p * a → votesAux p l = l.map (signVote a) := by
  induction l with
  | nil => intro p _; rfl
  | cons v vs ih =>
      intro p hpa
      have hv : v ≠ some 0 := hl v (List.mem_cons_self v vs)
      have hvs : ∀ w ∈ vs, w ≠ some 0 := fun w hw => hl w (List.mem_cons_of_mem v hw)
      have hp : p ≠ 0 := by
        intro hp0
        rw [hp0, zero_mul] at hpa
        exact lt_irrefl 0 hpa
      cases v with
      | none =>
          simp only [votesAux, voteStep, List.map_cons, signVote]
          rw [ih hvs p hpa]
      | some x =>
          have hx : x ≠ 0 := fun hx0 => hv (by rw [hx0])
          by_cases hxp : x * p < 0
          · have hcond : |x - p| > |x - p * (-1)| := (voteCond_iff x p).mpr hxp
            have hxa : x * a < 0 := by
              nlinarith [mul_pos hpa (neg_pos.mpr hxp), mul_self_pos.mpr hp]
            simp only [votesAux, voteStep, List.map_cons, signVote]
            rw [if_pos hcond, if_pos hxa]
            have hna : 0 < -x * a := by nlinarith
            rw [ih hvs (-x) hna]
          · have hcond : ¬ (|x - p| > |x - p * (-1)|) :=
              fun hc => hxp ((voteCond_iff x p).mp hc)
            have hxp2 : 0 < x * p :=
              lt_of_le_of_ne (not_lt.mp hxp) ((mul_ne_zero hx hp).symm)
            have hxa : 0 < x * a := by
              nlinarith [mul_pos hpa hxp2, mul_self_pos.mpr hp]
            simp only [votesAux, voteStep, List.map_cons, signVote]
            rw [if_neg hcond, if_neg (not_lt.mpr (le_of_lt hxa))]
            rw [ih hvs x hxa]

theorem votesRow_eq_signVote (a : ℚ) (rest : List (Option ℚ)) (ha : a ≠ 0)
    (hrest : ∀ v ∈ rest, v ≠ some 0) :
    votesRow (some a :: rest) = 0 :: rest.map (signVote a) := by
  have h0 : votesRow (some a :: rest) = 0 :: votesAux a rest := rfl
  rw [h0, votesAux_eq_signVote a rest hrest a (mul_self_pos.mpr ha)]

theorem votesAux_length (l : List (Option ℚ)) :
    ∀ p : ℚ, (votesAux p l).length = l.length := by
  induction l with
  | nil => intro p; rfl
  | cons v vs ih => intro p; simpa [votesAux] using ih (voteStep p v).1

theorem votesRow_length (l : List (Option ℚ)) :
    (votesRow l).length = l.length := by
  cases l with
  | nil => rfl
  | cons v vs => simpa [votesRow] using votesAux_length vs (v.getD 0)

theorem voteStep_neg (p : ℚ) (v : Option ℚ) :
    voteStep (-p) (v.map (fun x => -x)) =
      (-(voteStep p v).1, (voteStep p v).2) := by
  cases v with
  | none => simp [voteStep]
  | some x =>
      show voteStep (-p) (some (-x)) = _
      simp only [voteStep]
      have e1 : (-x) - (-p) = -(x - p) := by ring
      have e2 : (-x) - (-p) * (-1) = -(x - p * (-1)) := by ring
      rw [e1, e2, abs_neg, abs_neg]
      by_cases hc : |x - p| > |x - p * (-1)|
      · rw [if_pos hc, if_pos hc]
      · rw [if_neg hc, if_neg hc]

theorem votesAux_negRow (l : List (Option ℚ)) :
    ∀ p : ℚ, votesAux (-p) (negRow l) = votesAux p l := by
  induction l with
  | nil => intro p; rfl
  | cons v vs ih =>
      intro p
      have h0 : votesAux (-p) (negRow (v :: vs)) =
          (voteStep (-p) (v.map (fun x => -x))).2 ::
            votesAux (voteStep (-p) (v.map (fun x => -x))).1 (negRow vs) := rfl
      rw [h0, voteStep_neg p v]
      have h1 : votesAux p (v :: vs) =
          (voteStep p v).2 :: votesAux (voteStep p v).1 vs := rfl
      rw [h1, ih (voteStep p v).1]

theorem votesRow_negRow (l : List (Option ℚ)) :
    votesRow (negRow l) = votesRow l := by
  cases l with
  | nil => rfl
  | cons v vs =>
      simp only [negRow, List.map_cons, votesRow]
      rw [show (Option.map (fun x : ℚ => -x) v).getD 0 = -(v.getD 0) from
        getD0_map_neg v]
      simpa [negRow] using votesAux_negRow vs (v.getD 0)

/-- Proof-side helper: negate the vote entries at the positions whose
summed vote is negative (the positions the flipping step negates). -/
def flipVotes : List ℤ → List ℤ → List ℤ
  | _, [] => []
  | [], vs => vs
  | s :: ss, v :: vs => (if s < 0 then -v else v) :: flipVotes ss vs

theorem flipVotes_nil_right (S : List ℤ) : flipVotes S [] = [] := by
  cases S <;> rfl

theorem flipVotes_nil_left (vs : List ℤ) : flipVotes [] vs = vs := by
  cases vs <;> rfl

theorem flipVotes_length (S : List ℤ) :
    ∀ vs : List ℤ, (flipVotes S vs).length = vs.length := by
  induction S with
  | nil => intro vs; rw [flipVotes_nil_left]
  | cons s ss ih =>
      intro vs
      cases vs with
      | nil => rfl
      | cons v vs2 => simpa [flipVotes] using ih vs2

theorem flipVotes_self_nonneg (S : List ℤ) : ∀ s ∈ flipVotes S S, 0 ≤ s := by
  induction S with
  | nil => intro s hs; simp [flipVotes] at hs
  | cons a as ih =>
      intro s hs
      rcases List.mem_cons.mp hs with h | h
      · subst h
        by_cases ha : a < 0
        · rw [if_pos ha]; exact le_of_lt (neg_pos.mpr ha)
        · rw [if_neg ha]; exact not_lt.mp ha
      · exact ih s h

theorem zipWith_add_flipVotes (S : List ℤ) :
    ∀ a b : List ℤ, a.length = S.length → b.length = S.length →
      List.zipWith (· + ·) (flipVotes S a) (flipVotes S b) =
        flipVotes S (List.zipWith (· + ·) a b) := by
  induction S with
  | nil =>
      intro a b ha hb
      rw [List.length_eq_zero.mp ha, List.length_eq_zero.mp hb]
      rfl
  | cons s ss ih =>
      intro a b ha hb
      cases a with
      | nil => exact absurd ha (by simp)
      | cons x xs =>
          cases b with
          | nil => exact absurd hb (by simp)
          | cons y ys =>
              simp only [flipVotes, List.zipWith_cons_cons]
              rw [ih xs ys (by simpa using ha) (by simpa using hb)]
              by_cases hs : s < 0
              · rw [if_pos hs, if_pos hs, if_pos hs, neg_add]
              · rw [if_neg hs, if_neg hs, if_neg hs]

theorem applyFlipsRow_ok (l : List (Option ℚ)) (hl : ∀ v ∈ l, v ≠ some 0) :
    ∀ ss : List ℤ, ∀ v ∈ applyFlipsRow ss l, v ≠ some 0 := by
  induction l with
  | nil =>
      intro ss v hv
      rw [applyFlipsRow_nil] at hv
      exact absurd hv (List.not_mem_nil v)
  | cons w ws ih =>
      intro ss v hv
      have hw : w ≠ some 0 := hl w (List.mem_cons_self w ws)
      have hws : ∀ u ∈ ws, u ≠ some 0 := fun u hu => hl u (List.mem_cons_of_mem w hu)
      cases ss with
      | nil => exact hl v hv
      | cons s ss2 =>
          rcases List.mem_cons.mp hv with h | h
          · subst h
            by_cases hs : s < 0
            · rw [if_pos hs]
              cases w with
              | none => simp
              | some x =>
                  have hx : x ≠ 0 := fun hx0 => hw (by rw [hx0])
                  show some (-x) ≠ some 0
                  simp [hx]
            · rw [if_neg hs]; exact hw
          · exact ih hws ss2 v h

theorem signVote_neg (a : ℚ) (ha : a ≠ 0) (v : Option ℚ) (hv : v ≠ some 0) :
    signVote a (v.map (fun x => -x)) = -(signVote a v) := by
  cases v with
  | none => rfl
  | some x =>
      have hx : x ≠ 0 := fun hx0 => hv (by rw [hx0])
      show signVote a (some (-x)) = -(signVote a (some x))
      simp only [signVote]
      rcases lt_or_gt_of_ne (mul_ne_zero hx ha) with hxa | hxa
      · rw [if_pos hxa,
          if_neg (by rw [neg_mul]; exact not_lt.mpr (le_of_lt (neg_pos.mpr hxa)))]
      · rw [if_neg (not_lt.mpr (le_of_lt hxa)),
          if_pos (by rw [neg_mul]; exact neg_neg_of_pos hxa)]
        decide

theorem map_signVote_applyFlipsRow (a : ℚ) (ha : a ≠ 0) (l : List (Option ℚ))
    (hl : ∀ v ∈ l, v ≠ some 0) :
    ∀ ss : List ℤ, (applyFlipsRow ss l).map (signVote a) =
      flipVotes ss (l.map (signVote a)) := by
  induction l with
  | nil =>
      intro ss
      rw [applyFlipsRow_nil, List.map_nil, flipVotes_nil_right]
  | cons v vs ih =>
      intro ss
      have hv : v ≠ some 0 := hl v (List.mem_cons_self v vs)
      have hvs : ∀ u ∈ vs, u ≠ some 0 := fun u hu => hl u (List.mem_cons_of_mem v hu)
      cases ss with
      | nil => rw [flipVotes_nil_left]; rfl
      | cons s ss2 =>
          simp only [applyFlipsRow, List.map_cons, flipVotes]
          rw [ih hvs ss2]
          by_cases hs : s < 0
          · rw [if_pos hs, if_pos hs, signVote_neg a ha v hv]
          · rw [if_neg hs, if_neg hs]

theorem foldl_votes_length (n : ℕ) :
    ∀ (l : List (List (Option ℚ))) (acc : List ℤ), acc.length = n →
      (∀ r ∈ l, r.length = n) →
      (l.foldl (fun a r => List.zipWith (· + ·) a (votesRow r)) acc).length = n := by
  intro l
  induction l with
  | nil => intro acc hacc _; exact hacc
  | cons r rest ih =>
      intro acc hacc hl
      simp only [List.foldl_cons]
      refine ih _ ?_ (fun u hu => hl u (List.mem_cons_of_mem r hu))
      rw [List.length_zipWith, hacc, votesRow_length,
        hl r (List.mem_cons_self r rest), min_self]

theorem voteSums_length (gs : List (List (Option ℚ))) (n : ℕ)
    (hne : gs ≠ []) (hl : ∀ r ∈ gs, r.length = n) :
    (voteSums gs).length = n := by
  cases gs with
  | nil => exact absurd rfl hne
  | cons g rest =>
      show (rest.foldl (fun a r => List.zipWith (· + ·) a (votesRow r))
        (votesRow g)).length = n
      exact foldl_votes_length n rest (votesRow g)
        (by rw [votesRow_length]; exact hl g (List.mem_cons_self g rest))
        (fun u hu => hl u (List.mem_cons_of_mem g hu))

theorem foldl_votes_head0 :
    ∀ (l : List (List (Option ℚ))) (acc : List ℤ),
      (∃ t, acc = 0 :: t) → (∀ r ∈ l, r ≠ []) →
      ∃ t2, l.foldl (fun a r => List.zipWith (· + ·) a (votesRow r)) acc = 0 :: t2 := by
  intro l
  induction l with
  | nil => intro acc hacc _; exact hacc
  | cons r rest ih =>
      intro acc hacc hl
      obtain ⟨t, rfl⟩ := hacc
      obtain ⟨v, vs, rfl⟩ := List.exists_cons_of_ne_nil (hl r (List.mem_cons_self r rest))
      simp only [List.foldl_cons]
      have hz : List.zipWith (· + ·) (0 :: t) (votesRow (v :: vs)) =
          0 :: List.zipWith (· + ·) t (votesAux (v.getD 0) vs) := by
        show List.zipWith (· + ·) (0 :: t) (0 :: votesAux (v.getD 0) vs) = _
        rw [List.zipWith_cons_cons, add_zero]
      rw [hz]
      exact ih _ ⟨_, rfl⟩ (fun u hu => hl u (List.mem_cons_of_mem _ hu))

theorem voteSums_head0 (gs : List (List (Option ℚ))) (hne : gs ≠ [])
    (hl : ∀ r ∈ gs, r ≠ []) :
    ∃ t, voteSums gs = 0 :: t := by
  cases gs with
  | nil => exact absurd rfl hne
  | cons g rest =>
      obtain ⟨v, vs, rfl⟩ := List.exists_cons_of_ne_nil (hl g (List.mem_cons_self g rest))
      exact foldl_votes_head0 rest (votesRow (v :: vs)) ⟨_, rfl⟩
        (fun u hu => hl u (List.mem_cons_of_mem _ hu))

theorem foldl_votes_flip (S : List ℤ) (n : ℕ) (hS : S.length = n)
    (l l' : List (List (Option ℚ)))
    (h : List.Forall₂
      (fun r r2 => votesRow r2 = flipVotes S (votesRow r) ∧ r.length = n) l l') :
    ∀ acc : List ℤ, acc.length = n →
      l'.foldl (fun a r => List.zipWith (· + ·) a (votesRow r)) (flipVotes S acc) =
        flipVotes S (l.foldl (fun a r => List.zipWith (· + ·) a (votesRow r)) acc) := by
  induction h with
  | nil => intro acc _; rfl
  | @cons a b as bs hr hrest ih =>
      intro acc hacc
      simp only [List.foldl_cons]
      rw [hr.1, zipWith_add_flipVotes S acc (votesRow a)
        (by rw [hacc, hS]) (by rw [votesRow_length, hr.2, hS])]
      exact ih (List.zipWith (· + ·) acc (votesRow a))
        (by rw [List.length_zipWith, hacc, votesRow_length, hr.2, min_self])

theorem voteSums_flip (S : List ℤ) (n : ℕ) (hS : S.length = n)
    (l l' : List (List (Option ℚ)))
    (h : List.Forall₂
      (fun r r2 => votesRow r2 = flipVotes S (votesRow r) ∧ r.length = n) l l') :
    voteSums l' = flipVotes S (voteSums l) := by
  cases h with
  | nil =>
      show ([] : List ℤ) = flipVotes S []
      rw [flipVotes_nil_right]
  | @cons a b as bs hr hrest =>
      show bs.foldl (fun acc r => List.zipWith (· + ·) acc (votesRow r)) (votesRow b) =
        flipVotes S (as.foldl (fun acc r => List.zipWith (· + ·) acc (votesRow r)) (votesRow a))
      rw [hr.1]
      exact foldl_votes_flip S n hS as bs hrest (votesRow a)
        (by rw [votesRow_length, hr.2])

theorem applyFlipsRow_of_nonneg (row : List (Option ℚ)) :
    ∀ sums : List ℤ, (∀ s ∈ sums, 0 ≤ s) → applyFlipsRow sums row = row := by
  induction row with
  | nil => intro s _; exact applyFlipsRow_nil s
  | cons v vs ih =>
      intro sums hs
      cases sums with
      | nil => rfl
      | cons s ss =>
          have h0 : ¬ s < 0 := not_lt.mpr (hs s (List.mem_cons_self s ss))
          simp only [applyFlipsRow, if_neg h0]
          rw [ih ss (fun u hu => hs u (List.mem_cons_of_mem s hu))]

theorem applyFlips_of_nonneg (sums : List ℤ) (rows : List (List (Option ℚ)))
    (h : ∀ s ∈ sums, 0 ≤ s) : applyFlips sums rows = rows := by
  unfold applyFlips
  have hrow : ∀ r ∈ rows, applyFlipsRow sums r = r :=
    fun r _ => applyFlipsRow_of_nonneg r sums h
  rw [List.map_congr_left hrow]
  simp

theorem globalNormalize_idem (rows : List (List (Option ℚ))) :
    globalNormalize (globalNormalize rows) = globalNormalize rows := by
  cases h1 : listMin (flat0 rows) with
  | none =>
      have hrows : globalNormalize rows = rows := by
        unfold globalNormalize
        rw [h1]
      rw [hrows, hrows]
  | some m =>
      cases h2 : listMax (flat0 rows) with
      | none =>
          have hrows : globalNormalize rows = rows := by
            unfold globalNormalize
            rw [h1, h2]
          rw [hrows, hrows]
      | some M =>
          by_cases hc : |m| > |M|
          · have hrows : globalNormalize rows = rows.map negRow := by
              unfold globalNormalize
              rw [h1, h2]
              dsimp only
              rw [if_pos hc]
            rw [hrows]
            have hmin : listMin (flat0 (rows.map negRow)) = some (-M) := by
              rw [flat0_map_negRow, listMin_map_neg, h2]
              rfl
            have hmax : listMax (flat0 (rows.map negRow)) = some (-m) := by
              rw [flat0_map_negRow, listMax_map_neg, h1]
              rfl
            unfold globalNormalize
            rw [hmin, hmax]
            dsimp only
            rw [if_neg (by rw [abs_neg, abs_neg]; exact not_lt.mpr (le_of_lt hc))]
          · have hrows : globalNormalize rows = rows := by
              unfold globalNormalize
              rw [h1, h2]
              dsimp only
              rw [if_neg hc]
            rw [hrows, hrows]

theorem forall₂_map_map {α β : Type} (P : β → β → Prop) (f g : α → β) :
    ∀ l : List α, (∀ x ∈ l, P (f x) (g x)) →
      List.Forall₂ P (l.map f) (l.map g) := by
  intro l
  induction l with
  | nil => intro _; exact List.Forall₂.nil
  | cons x xs ih =>
      intro h
      exact List.Forall₂.cons (h x (List.mem_cons_self x xs))
        (ih fun y hy => h y (List.mem_cons_of_mem x hy))

theorem votesRow_applyFlipsRow (a : ℚ) (ha : a ≠ 0) (rest : List (Option ℚ))
    (hrest : ∀ v ∈ rest, v ≠ some 0) (ss : List ℤ) :
    votesRow (applyFlipsRow ((0 : ℤ) :: ss) (some a :: rest)) =
      flipVotes ((0 : ℤ) :: ss) (votesRow (some a :: rest)) := by
  have h0 : applyFlipsRow ((0 : ℤ) :: ss) (some a :: rest) =
      some a :: applyFlipsRow ss rest := by
    show (if (0 : ℤ) < 0 then Option.map (fun x => -x) (some a) else some a) ::
      applyFlipsRow ss rest = _
    rw [if_neg (lt_irrefl (0 : ℤ))]
  rw [h0, votesRow_eq_signVote a _ ha (applyFlipsRow_ok rest hrest ss),
    votesRow_eq_signVote a rest ha hrest,
    map_signVote_applyFlipsRow a ha rest hrest ss]
  show _ = (if (0 : ℤ) < 0 then -(0 : ℤ) else 0) :: flipVotes ss (rest.map (signVote a))
  rw [if_neg (lt_irrefl (0 : ℤ))]

/-- A guide-sample row whose votes are fully sign-determined: non-empty,
anchored by a present first value, and with no coordinate equal to zero. -/
def goodGuideRow (l : List (Option ℚ)) : Prop :=
  l ≠ [] ∧ l.headD none ≠ none ∧ ∀ v ∈ l, v ≠ some 0

instance goodGuideRow_decidable (l : List (Option ℚ)) :
    Decidable (goodGuideRow l) := by
  unfold goodGuideRow
  infer_instance

theorem goodGuideRow_shape (l : List (Option ℚ)) (h : goodGuideRow l) :
    ∃ a rest, l = some a :: rest ∧ a ≠ 0 ∧ ∀ v ∈ rest, v ≠ some 0 := by
  obtain ⟨hne, hhead, hall⟩ := h
  cases l with
  | nil => exact absurd rfl hne
  | cons v vs =>
      cases v with
      | none => exact absurd rfl hhead
      | some a =>
          refine ⟨a, vs, rfl, ?_, fun u hu => hall u (List.mem_cons_of_mem _ hu)⟩
          intro ha0
          exact hall (some a) (List.mem_cons_self _ _) (by rw [ha0])

/-- C8 (amended): polarization is idempotent for every guide set whose rows
are non-empty, anchored by a present first-window value, and free of zero
coordinates: re-running `polarize` with the same guide samples then
produces zero additional sign flips, leaving the track unchanged.  (A zero
guide coordinate — or a missing anchor, which the code replaces by the zero
reference — resets the running reference and breaks idempotence, as the
counterexample shows.) -/
theorem polarize_idempotent (g : List ℕ) (rows : List (List (Option ℚ)))
    (n : ℕ) (hg : g ≠ [])
    (hlen : ∀ i ∈ g, (rows.getD i []).length = n)
    (hshape : ∀ i ∈ g, goodGuideRow (rows.getD i [])) :
    polarizeTrack g (polarizeTrack g rows) = polarizeTrack g rows := by
  have hgsne : (g.map (fun i => rows.getD i [])) ≠ [] := by
    cases g with
    | nil => exact absurd rfl hg
    | cons i g2 => simp
  have hgs_len : ∀ r ∈ g.map (fun i => rows.getD i []), r.length = n := by
    intro r hr
    obtain ⟨i, hi, rfl⟩ := List.mem_map.mp hr
    exact hlen i hi
  have hgs_good : ∀ r ∈ g.map (fun i => rows.getD i []), goodGuideRow r := by
    intro r hr
    obtain ⟨i, hi, rfl⟩ := List.mem_map.mp hr
    exact hshape i hi
  set S := voteSums (g.map (fun i => rows.getD i [])) with hSdef
  have hSlen : S.length = n := voteSums_length _ n hgsne hgs_len
  obtain ⟨ss, hS0⟩ :=
    voteSums_head0 _ hgsne (fun r hr => (hgs_good r hr).1)
  have hrows' : polarizeTrack g rows = globalNormalize (applyFlips S rows) := rfl
  have hguide : ∀ i ∈ g,
      votesRow ((polarizeTrack g rows).getD i []) =
        flipVotes S (votesRow (rows.getD i [])) := by
    intro i hi
    obtain ⟨a, rest, hrow, ha, hok⟩ := goodGuideRow_shape _ (hshape i hi)
    have hget : (applyFlips S rows).getD i [] =
        applyFlipsRow S (rows.getD i []) := by
      unfold applyFlips
      exact getD_map_of_fix _ [] [] (applyFlipsRow_nil S) rows i
    rcases globalNormalize_cases (applyFlips S rows) with hgn | hgn
    · rw [hrows', hgn, hget, hrow, hSdef, hS0]
      exact votesRow_applyFlipsRow a ha rest hok ss
    · rw [hrows', hgn, getD_map_of_fix negRow [] [] rfl, votesRow_negRow,
        hget, hrow, hSdef, hS0]
      exact votesRow_applyFlipsRow a ha rest hok ss
  have hF : List.Forall₂
      (fun r r2 => votesRow r2 = flipVotes S (votesRow r) ∧ r.length = n)
      (g.map (fun i => rows.getD i []))
      (g.map (fun i => (polarizeTrack g rows).getD i [])) :=
    forall₂_map_map _ _ _ g (fun i hi => ⟨hguide i hi, hlen i hi⟩)
  have hsum2 : voteSums (g.map (fun i => (polarizeTrack g rows).getD i [])) =
      flipVotes S S := by
    rw [voteSums_flip S n hSlen _ _ hF]
  have hstep : polarizeTrack g (polarizeTrack g rows) =
      globalNormalize (applyFlips
        (voteSums (g.map (fun i => (polarizeTrack g rows).getD i [])))
        (polarizeTrack g rows)) := rfl
  rw [hstep, hsum2,
    applyFlips_of_nonneg _ _ (flipVotes_self_nonneg S), hrows']
  exact globalNormalize_idem (applyFlips S rows)

/-- C8 counterexample: with the single guide sample row `[1, 0, -1]`, one
polarization run yields `[1, 0, 1]` (votes `[0,-1,-1]`, both later columns
flipped), but a second run with the same guide sample flips them again,
yielding `[1, 0, -1]` — the zero coordinate resets the running reference,
so re-running polarization changes the already-polarized track. -/
theorem polarize_not_idempotent :
    polarizeTrack [0] (polarizeTrack [0] [[some 1, some 0, some (-1)]]) ≠
      polarizeTrack [0] [[some 1, some 0, some (-1)]] := by
  have h1 : polarizeTrack [0] [[some 1, some 0, some (-1)]] =
      [[some 1, some 0, some 1]] := by
    norm_num [polarizeTrack, polarizeWithGuides, voteSums, votesRow, votesAux,
      voteStep, applyFlips, applyFlipsRow, globalNormalize, flat0, listMin,
      listMax, negRow, min_def, max_def, List.foldl_cons, List.foldl_nil]
  have h2 : polarizeTrack [0] [[some 1, some 0, some 1]] =
      [[some 1, some 0, some (-1)]] := by
    norm_num [polarizeTrack, polarizeWithGuides, voteSums, votesRow, votesAux,
      voteStep, applyFlips, applyFlipsRow, globalNormalize, flat0, listMin,
      listMax, negRow, min_def, max_def, List.foldl_cons, List.foldl_nil]
  rw [h1, h2]
  decide

theorem polarize_idempotent_witness :
    ([0] : List ℕ) ≠ [] ∧
      (∀ i ∈ ([0] : List ℕ),
        (([[some 1, some (-1), some 1, some 1]] :
          List (List (Option ℚ))).getD i []).length = 4) ∧
      (∀ i ∈ ([0] : List ℕ),
        goodGuideRow (([[some 1, some (-1), some 1, some 1]] :
          List (List (Option ℚ))).getD i [])) ∧
      polarizeTrack [0]
          (polarizeTrack [0] [[some 1, some (-1), some 1, some 1]]) =
        polarizeTrack [0] [[some 1, some (-1), some 1, some 1]] :=
  ⟨by decide, by decide, by decide,
    polarize_idempotent [0] [[some 1, some (-1), some 1, some 1]] 4
      (by decide) (by decide) (by decide)⟩

end WindowedPca

